import Mathlib

/-!
Verification of the MicroHydra Cardputer launcher (`launcher/launcher.py`).

The development shallowly embeds the launcher's catalog resolver
(`scan_apps`), the activation / handoff sequence of `main_loop` and
`launch_app`, the selection-index arithmetic, the scroll-factor decay,
the jump-to-letter shortcut, and the bounded retry loops of
`wifi_sync_rtc`.  Strings are modelled by Lean `String`; the Python
dict `app_paths` is modelled by an association list with
replace-on-insert semantics; MicroPython floats are modelled by exact
rationals; storage I/O is modelled by an explicit filesystem state plus
a fault record, with failures surfacing as `Except.error` exactly where
the Python code would raise an uncaught `OSError`.
-/

/-- Association-list model of the Python dict `app_paths`.
`dictInsert` implements `d[k] = v`: it replaces the binding if the key
is present and appends otherwise, so keys stay unique. -/
def dictInsert (d : List (String × String)) (k v : String) : List (String × String) :=
  match d with
  | [] => [(k, v)]
  | p :: rest => if p.1 = k then (k, v) :: rest else p :: dictInsert rest k v

/-- Lookup in the dict model (`d[k]`, as an `Option`). -/
def dictGet (d : List (String × String)) (k : String) : Option String :=
  match d with
  | [] => none
  | p :: rest => if p.1 = k then some p.2 else dictGet rest k

/-- Number of bindings a key has in the dict model. -/
def keyCount (d : List (String × String)) (k : String) : Nat :=
  match d with
  | [] => 0
  | p :: rest => (if p.1 = k then 1 else 0) + keyCount rest k

/-- Occurrence count of a string in a list (used for the ordered name list). -/
def cnt (n : String) : List String → Nat
  | [] => 0
  | x :: r => (if x = n then 1 else 0) + cnt n r

/-- ASCII lower-casing of one character, as CPython's `str.lower` acts on
the ASCII range (app filenames in the launcher are ASCII). -/
def lowChar (c : Char) : Char :=
  if 65 ≤ c.toNat ∧ c.toNat ≤ 90 then Char.ofNat (c.toNat + 32) else c

/-- The sort key of `app_names.sort(key=lambda element: element.lower())`. -/
def lowKey (s : String) : List Char := s.data.map lowChar

/-- Lexicographic code-point comparison of character lists: Python's `<`
on the strings obtained from `str.lower`. -/
def ltChars : List Char → List Char → Bool
  | _, [] => false
  | [], _ :: _ => true
  | a :: as, b :: bs =>
    if a.toNat < b.toNat then true
    else if b.toNat < a.toNat then false
    else ltChars as bs

/-- `a` may precede `b` in the case-insensitive sort (key of `a` ≤ key of `b`). -/
def leCI (a b : String) : Bool := !(ltChars (lowKey b) (lowKey a))

/-- Stable insertion into a sorted list, the building block of the model of
`list.sort(key=...)`. -/
def insertCI (x : String) : List String → List String
  | [] => [x]
  | y :: ys => if leCI x y then x :: y :: ys else y :: insertCI x ys

/-- Stable case-insensitive sort modelling
`app_names.sort(key=lambda element: element.lower())`. -/
def sortCI : List String → List String
  | [] => []
  | x :: xs => insertCI x (sortCI xs)

/-- Suffix handling of one directory entry in `scan_apps`:
`entry.endswith(".py")` strips the last 3 characters,
`entry.endswith(".mpy")` strips the last 4, anything else is skipped. -/
def sfx (e : String) : Option String :=
  if e.data.drop (e.data.length - 3) = ['.', 'p', 'y'] then
    some (String.mk (e.data.take (e.data.length - 3)))
  else if e.data.drop (e.data.length - 4) = ['.', 'm', 'p', 'y'] then
    some (String.mk (e.data.take (e.data.length - 4)))
  else none

/-- One pass of `scan_apps` over a directory listing (`for entry in ...`):
a recognised entry's name is appended to `app_names` only if new, and its
path `pre + entry` is always (re)written into `app_paths`. -/
def procEntries (pre : String) :
    List String → List String × List (String × String) → List String × List (String × String)
  | [], st => st
  | e :: rest, (names, paths) =>
    match sfx e with
    | some n =>
      procEntries pre rest
        ((if n ∈ names then names else names ++ [n]), dictInsert paths n (pre ++ e))
    | none => procEntries pre rest (names, paths)

/-- The pure tail of `scan_apps` (source lines 226-275): process the flash
listing then the SD listing, sort case-insensitively, append the three
synthetic names, and give `Settings` its fixed path. -/
def scan_pure (flash sdl : List String) : List String × List (String × String) :=
  let st1 := procEntries "/apps/" flash ([], [])
  let st2 := procEntries "/sd/apps/" sdl st1
  (sortCI st2.1 ++ ["Reload Apps", "UI Sound", "Settings"],
   dictInsert st2.2 "Settings" "/launcher/settings.py")

/-- Storage state seen by `scan_apps`: whether the SD card is mounted at
`/sd`, whether `/apps` and `/sd/apps` exist, and the two listings. -/
structure FS where
  sdMounted : Bool
  appsDir : Bool
  sdAppsDir : Bool
  appsFiles : List String
  sdAppsFiles : List String

/-- Which storage operations fail (raise `OSError`) during one scan:
the mount (line 190, guarded), every `os.listdir("/sd")` (lines 202 and
212, unguarded), the two `os.mkdir` calls (lines 206 and 211, unguarded),
the `os.listdir("/sd/apps")` (line 220, guarded), and the `os.umount`
that sits bare inside the `except` handler (line 224, unguarded). -/
structure Faults where
  mountFails : Bool
  listSdFails : Bool
  mkdirAppsFails : Bool
  mkdirSdAppsFails : Bool
  listSdAppsFails : Bool
  umountFails : Bool

/-- Effectful model of `scan_apps(sd)` (source lines 170-275).
`sd` says whether the module-level SDCard handle exists.  Only the mount
(line 190) and the `os.listdir("/sd/apps")` (line 220) are inside `try`
blocks; the `os.listdir("/sd")` calls (lines 202, 212), the two
`os.mkdir` calls (lines 206, 211) and the `os.umount("/sd")` inside the
`except` handler (line 224) are unguarded, so their failure propagates as
`Except.error`.  (The source's `if "sd" == None:` re-initialisation
branch is dead code — the comparison is always false — and is therefore
omitted.) -/
def scan_apps (sd : Bool) (fs : FS) (f : Faults) :
    Except String (List String × List (String × String) × Bool) :=
  -- mount attempt when /sd is absent and a handle exists; failure is caught
  let fs1 : FS :=
    if !fs.sdMounted && sd && !f.mountFails then
      FS.mk true fs.appsDir fs.sdAppsDir fs.appsFiles fs.sdAppsFiles
    else fs
  -- sd_directory = os.listdir("/sd") when mounted (line 202): NOT wrapped
  -- in try, e.g. a card removed while mounted raises here
  if fs1.sdMounted && f.listSdFails then Except.error "OSError: listdir /sd" else
  let sdDirApps : Bool := fs1.sdMounted && fs1.sdAppsDir
  -- os.mkdir("/apps") is NOT wrapped in try: failure propagates
  if !fs1.appsDir && f.mkdirAppsFails then Except.error "OSError: mkdir /apps" else
  let fs2 : FS :=
    if !fs1.appsDir then
      FS.mk fs1.sdMounted true fs1.sdAppsDir fs1.appsFiles fs1.sdAppsFiles
    else fs1
  -- os.mkdir("/sd/apps") is NOT wrapped in try either; the re-listing of
  -- /sd at line 212 happens only here, where listSdFails is already false
  if !sdDirApps && fs2.sdMounted && f.mkdirSdAppsFails then
    Except.error "OSError: mkdir /sd/apps" else
  let fs3 : FS :=
    if !sdDirApps && fs2.sdMounted then
      FS.mk fs2.sdMounted fs2.appsDir true fs2.appsFiles fs2.sdAppsFiles
    else fs2
  let mainApps : List String := fs3.appsFiles
  -- os.listdir("/sd/apps") is wrapped in try, but the os.umount("/sd") in
  -- its except handler is bare: its failure propagates
  if fs3.sdMounted && f.listSdAppsFails && f.umountFails then
    Except.error "OSError: umount /sd" else
  -- on a caught listing failure the SD list stays []
  let sdApps : List String :=
    if fs3.sdMounted then (if f.listSdAppsFails then [] else fs3.sdAppsFiles) else []
  let r := scan_pure mainApps sdApps
  Except.ok (r.1, r.2, sd)

/-- Projection used to state end-to-end catalog results. -/
def namesOf (e : Except String (List String × List (String × String) × Bool)) :
    Option (List String) :=
  match e with
  | Except.ok r => some r.1
  | Except.error _ => none

/-- Observable effects of one activation (`GO`/`ENT`) in `main_loop`,
plus the body of `launch_app`. -/
inductive Ev where
  | cfgToggleSound
  | cfgSave
  | dispFill
  | dispSleep
  | backlightOff
  | sdDeinit
  | beep
  | rtcWrite (p : String)
  | setFreq
  | reset
  | rescan
  | keyError
deriving DecidableEq

/-- Effect trace of the `GO`/`ENT` branch of `main_loop` (source lines
569-608) followed by `launch_app` (lines 284-292) for the launch case:
`UI Sound` toggles the config (with a chime only when unmuting),
`Reload Apps` rescans, and every other entry saves the config, blanks the
display, releases the SD card when held, then writes `app_paths[name]`
to RTC memory and resets.  A missing dict key raises `KeyError` only
after the quiesce steps, as in the source. -/
def activate (names : List String) (paths : List (String × String)) (i : Nat)
    (sdHeld sndOn : Bool) : List Ev :=
  let name := names.getD i ""
  if name = "UI Sound" then
    if sndOn = false then [Ev.cfgToggleSound, Ev.beep] else [Ev.cfgToggleSound]
  else if name = "Reload Apps" then
    Ev.rescan :: (if sndOn then [Ev.beep] else [])
  else
    [Ev.cfgSave, Ev.dispFill, Ev.dispSleep, Ev.backlightOff]
      ++ (if sdHeld then [Ev.sdDeinit] else [])
      ++ (if sndOn then [Ev.beep] else [])
      ++ (match dictGet paths name with
          | some p => [Ev.rtcWrite p, Ev.setFreq, Ev.reset]
          | none => [Ev.keyError])

/-- Whether an event occurs in a trace. -/
def hasEv (l : List Ev) (e : Ev) : Bool :=
  match l with
  | [] => false
  | x :: r => if x = e then true else hasEv r e

/-- Whether `b` occurs strictly after the first occurrence of `a`. -/
def beforeB (l : List Ev) (a b : Ev) : Bool :=
  match l with
  | [] => false
  | x :: r => if x = a then hasEv r b else beforeB r a b

/-- Navigation events of the selection state machine. -/
inductive MV where
  | nxt
  | prv

/-- One navigation step of `main_loop`: `app_selector_index ± 1` followed by
the per-iteration `app_selector_index % len(app_names)` (source lines
535-561 and 647).  Python `%` with a positive modulus is `Int.emod`. -/
def stepMove (len : Nat) : MV → Int → Int
  | MV.nxt, i => (i + 1) % (len : Int)
  | MV.prv, i => (i - 1) % (len : Int)

/-- Folding a sequence of navigation events from a starting index. -/
def applyMoves (len : Nat) : List MV → Int → Int
  | [], i => i
  | m :: ms, i => applyMoves len ms (stepMove len m i)

/-- `min` on rationals, as Python's `min` on two floats. -/
def ratMin (a b : ℚ) : ℚ := if a ≤ b then a else b

/-- `abs` on rationals, as Python's `abs`. -/
def ratAbs (x : ℚ) : ℚ := if x < 0 then -x else x

/-- One tick of the scroll-factor decay (source lines 657-662), with the
float literal `0.11` modelled as the exact rational 11/100:
a positive factor loses `min(0.11, abs(x))`, otherwise it gains it. -/
def decayStep (x : ℚ) : ℚ :=
  if 0 < x then x - ratMin (11 / 100) (ratAbs x)
  else x + ratMin (11 / 100) (ratAbs x)

/-- The scroll factor after `k` ticks starting from `scroll_factor = 1.0`. -/
def decayIter (k : Nat) : ℚ := decayStep^[k] 1

/-- Whether a name matches the jump key `c`: the source tests
`name.lower().startswith(key)` with `key` a single character. -/
def jumpMatch (c : Char) (n : String) : Bool :=
  decide ((n.data.map lowChar).take 1 = [c])

/-- The jump-to-letter loop of `main_loop` (source lines 610-643):
walk `enumerate(app_names)` and stop at the first match, recording the
new index and the scroll-factor reset (`-1` when jumping backward, `1`
when jumping forward, none when the index is unchanged); if no name
matches, the index stays `old` and no animation reset happens. -/
def jumpScan (c : Char) (old : Nat) : Nat → List String → Nat × Option Int
  | _, [] => (old, none)
  | idx, n :: rest =>
    if jumpMatch c n then
      (idx, if idx < old then some (-1) else if old < idx then some 1 else none)
    else jumpScan c old (idx + 1) rest

/-- Modelled from the spec side for comparison: the position of the first
entry matching a predicate in the ordered name list. -/
def findFirstIdx (p : String → Bool) : List String → Option Nat
  | [] => none
  | n :: rest => if p n then some 0 else (findFirstIdx p rest).map (· + 1)

/-- The wifi connection loop of `wifi_sync_rtc` (source lines 115-126):
`isConn a` is whether `nic.isconnected()` holds when `a` connection
attempts have been made; each iteration makes one attempt and breaks once
the count reaches `_MAX_WIFI_ATTEMPTS = 100`.  Returns the attempt count
at exit. -/
def connLoop (isConn : Nat → Bool) (a : Nat) : Nat :=
  if isConn a then a
  else if h : 100 ≤ a + 1 then a + 1
  else connLoop isConn (a + 1)
termination_by 100 - a
decreasing_by omega

/-- The NTP loop of `wifi_sync_rtc` (source lines 130-139): while the RTC
year is still the default 2000 (`clockUnset a` after `a` attempts) and
fewer than `_MAX_NTP_ATTEMPTS = 10` attempts were made, try again.
Returns the attempt count at exit. -/
def ntpLoop (clockUnset : Nat → Bool) (a : Nat) : Nat :=
  if h : clockUnset a = true ∧ a < 10 then ntpLoop clockUnset (a + 1) else a
termination_by 10 - a
decreasing_by omega

/-- The invariant of the catalog construction: names occur at most once,
every listed name has a path, and every key has at most one binding. -/
def InvSt (st : List String × List (String × String)) : Prop :=
  (∀ n, cnt n st.1 ≤ 1) ∧
  (∀ n, 1 ≤ cnt n st.1 → (dictGet st.2 n).isSome = true) ∧
  (∀ n, keyCount st.2 n ≤ 1)

theorem dictGet_insert_self (d : List (String × String)) (k v : String) :
    dictGet (dictInsert d k v) k = some v := by
  induction d with
  | nil => simp [dictInsert, dictGet]
  | cons p rest ih =>
    by_cases h : p.1 = k
    · simp [dictInsert, dictGet, h]
    · simp [dictInsert, dictGet, h, ih]

theorem dictGet_insert_ne (d : List (String × String)) (k v j : String) (h : j ≠ k) :
    dictGet (dictInsert d k v) j = dictGet d j := by
  have hkj : ¬ k = j := fun hh => h hh.symm
  induction d with
  | nil => simp [dictInsert, dictGet, hkj]
  | cons p rest ih =>
    by_cases hp : p.1 = k
    · have hpj : ¬ p.1 = j := by rw [hp]; exact hkj
      simp [dictInsert, dictGet, hp, hpj, hkj]
    · by_cases hj : p.1 = j
      · simp [dictInsert, dictGet, hp, hj, h]
      · simp [dictInsert, dictGet, hp, hj, ih]

theorem keyCount_insert_ne (d : List (String × String)) (k v j : String) (h : j ≠ k) :
    keyCount (dictInsert d k v) j = keyCount d j := by
  have hkj : ¬ k = j := fun hh => h hh.symm
  induction d with
  | nil => simp [dictInsert, keyCount, hkj]
  | cons p rest ih =>
    by_cases hp : p.1 = k
    · have hpj : ¬ p.1 = j := by rw [hp]; exact hkj
      simp [dictInsert, keyCount, hp, hpj, hkj]
    · simp [dictInsert, keyCount, hp, ih]

theorem keyCount_insert_self_le (d : List (String × String)) (k v : String)
    (h : keyCount d k ≤ 1) : keyCount (dictInsert d k v) k ≤ 1 := by
  induction d with
  | nil => simp [dictInsert, keyCount]
  | cons p rest ih =>
    by_cases hp : p.1 = k
    · simp only [keyCount, hp, if_pos rfl] at h
      simp only [dictInsert, if_pos hp, keyCount, if_pos rfl]
      omega
    · simp only [keyCount, if_neg hp] at h
      simp only [dictInsert, if_neg hp, keyCount, if_neg hp]
      have := ih (by omega)
      omega

theorem keyCount_pos_iff (d : List (String × String)) (k : String) :
    1 ≤ keyCount d k ↔ (dictGet d k).isSome = true := by
  induction d with
  | nil => simp [keyCount, dictGet]
  | cons p rest ih =>
    by_cases hp : p.1 = k
    · simp [keyCount, dictGet, hp]
    · simp [keyCount, dictGet, hp, ih]

theorem cnt_pos_iff (n : String) (l : List String) : 1 ≤ cnt n l ↔ n ∈ l := by
  induction l with
  | nil => simp [cnt]
  | cons x r ih =>
    by_cases hx : x = n
    · simp [cnt, hx]
    · have hnx : ¬ n = x := fun hh => hx hh.symm
      simp [cnt, hx, hnx, ih]

theorem cnt_append (n : String) (l1 l2 : List String) :
    cnt n (l1 ++ l2) = cnt n l1 + cnt n l2 := by
  induction l1 with
  | nil => simp [cnt]
  | cons x r ih => simp [cnt, ih]; omega

theorem cnt_insertCI (n x : String) (l : List String) :
    cnt n (insertCI x l) = (if x = n then 1 else 0) + cnt n l := by
  induction l with
  | nil => simp [insertCI, cnt]
  | cons y ys ih =>
    by_cases hle : leCI x y
    · simp [insertCI, hle, cnt]
    · simp [insertCI, hle, cnt, ih]
      omega

theorem cnt_sortCI (n : String) (l : List String) : cnt n (sortCI l) = cnt n l := by
  induction l with
  | nil => rfl
  | cons x xs ih => simp [sortCI, cnt_insertCI, cnt, ih]

theorem procEntries_cnt_mono (pre : String) (l : List String) :
    ∀ ns ps n, cnt n ns ≤ cnt n (procEntries pre l (ns, ps)).1 := by
  induction l with
  | nil => intro ns ps n; simp [procEntries]
  | cons e rest ih =>
    intro ns ps n
    cases hs : sfx e with
    | none => simpa [procEntries, hs] using ih ns ps n
    | some m =>
      by_cases hm : m ∈ ns
      · simpa [procEntries, hs, hm] using ih ns _ n
      · refine le_trans ?_ (by simpa [procEntries, hs, hm] using ih (ns ++ [m]) _ n)
        simp [cnt_append]

theorem procEntries_mem (pre : String) (l : List String) :
    ∀ ns ps e n, e ∈ l → sfx e = some n → 1 ≤ cnt n (procEntries pre l (ns, ps)).1 := by
  induction l with
  | nil => intro ns ps e n h; exact absurd h (List.not_mem_nil e)
  | cons x rest ih =>
    intro ns ps e n hmem hs
    rcases List.mem_cons.mp hmem with he | he
    · subst he
      cases hsx : sfx e with
      | none => rw [hs] at hsx; exact absurd hsx (by simp)
      | some m =>
        rw [hs] at hsx
        injection hsx with hmn
        subst hmn
        by_cases hm : n ∈ ns
        · have h1 : 1 ≤ cnt n ns := (cnt_pos_iff n ns).mpr hm
          have := procEntries_cnt_mono pre rest ns (dictInsert ps n (pre ++ e)) n
          simp [procEntries, hs, hm]
          omega
        · have h1 : 1 ≤ cnt n (ns ++ [n]) := by simp [cnt_append, cnt]
          have := procEntries_cnt_mono pre rest (ns ++ [n]) (dictInsert ps n (pre ++ e)) n
          simp [procEntries, hs, hm]
          omega
    · cases hsx : sfx x with
      | none => simpa [procEntries, hsx] using ih ns ps e n he hs
      | some m =>
        by_cases hm : m ∈ ns
        · simpa [procEntries, hsx, hm] using ih ns _ e n he hs
        · simpa [procEntries, hsx, hm] using ih (ns ++ [m]) _ e n he hs

theorem invSt_step (ns : List String) (ps : List (String × String)) (m pth : String)
    (h : InvSt (ns, ps)) :
    InvSt ((if m ∈ ns then ns else ns ++ [m]), dictInsert ps m pth) := by
  obtain ⟨h1, h2, h3⟩ := h
  refine ⟨?_, ?_, ?_⟩
  · intro n
    by_cases hm : m ∈ ns
    · simpa [hm] using h1 n
    · simp only [hm, if_neg, if_false]
      rw [cnt_append]
      by_cases hmn : m = n
      · subst hmn
        have : cnt m ns = 0 := by
          by_contra hc
          exact hm ((cnt_pos_iff m ns).mp (by omega))
        simp [this, cnt]
      · have h1n : cnt n ns ≤ 1 := h1 n
        simp [cnt, hmn]
        omega
  · intro n hn
    by_cases hmn : n = m
    · subst hmn
      simp [dictGet_insert_self]
    · rw [dictGet_insert_ne ps m pth n hmn]
      refine h2 n ?_
      show 1 ≤ cnt n ns
      by_cases hm : m ∈ ns
      · simpa [hm] using hn
      · simp only [hm, if_neg, if_false] at hn
        rw [cnt_append] at hn
        have hnm : ¬ m = n := fun hh => hmn hh.symm
        have hz : cnt n [m] = 0 := by simp [cnt, hnm]
        omega
  · intro n
    by_cases hmn : n = m
    · subst hmn
      exact keyCount_insert_self_le ps n pth (h3 n)
    · rw [keyCount_insert_ne ps m pth n hmn]
      exact h3 n

theorem invSt_procEntries (pre : String) (l : List String) :
    ∀ ns ps, InvSt (ns, ps) → InvSt (procEntries pre l (ns, ps)) := by
  induction l with
  | nil => intro ns ps h; simpa [procEntries] using h
  | cons e rest ih =>
    intro ns ps h
    cases hs : sfx e with
    | none => simpa [procEntries, hs] using ih ns ps h
    | some m =>
      have := invSt_step ns ps m (pre ++ e) h
      simpa [procEntries, hs] using ih _ _ this

theorem procEntries_get_unchanged (pre : String) (l : List String) :
    ∀ ns ps n, (∀ e, e ∈ l → sfx e ≠ some n) →
      dictGet (procEntries pre l (ns, ps)).2 n = dictGet ps n := by
  induction l with
  | nil => intro ns ps n _; simp [procEntries]
  | cons x rest ih =>
    intro ns ps n h
    cases hsx : sfx x with
    | none =>
      simpa [procEntries, hsx] using ih ns ps n (fun e he => h e (List.mem_cons_of_mem x he))
    | some m =>
      have hmn : m ≠ n := by
        intro hc
        exact h x (List.mem_cons_self x rest) (by rw [hsx, hc])
      have hrec := ih (if m ∈ ns then ns else ns ++ [m]) (dictInsert ps m (pre ++ x)) n
        (fun e he => h e (List.mem_cons_of_mem x he))
      rw [dictGet_insert_ne ps m (pre ++ x) n (fun hh => hmn hh.symm)] at hrec
      simpa [procEntries, hsx] using hrec

theorem procEntries_get_last (pre : String) (l : List String) :
    ∀ ns ps n, (∃ e, e ∈ l ∧ sfx e = some n) →
      ∃ e, e ∈ l ∧ sfx e = some n ∧
        dictGet (procEntries pre l (ns, ps)).2 n = some (pre ++ e) := by
  induction l with
  | nil => intro ns ps n h; exact absurd h.choose_spec.1 (List.not_mem_nil _)
  | cons x rest ih =>
    intro ns ps n h
    by_cases hre : ∃ e, e ∈ rest ∧ sfx e = some n
    · cases hsx : sfx x with
      | none =>
        obtain ⟨e, he, hsfx, hget⟩ := ih ns ps n hre
        exact ⟨e, List.mem_cons_of_mem x he, hsfx, by simpa [procEntries, hsx] using hget⟩
      | some m =>
        obtain ⟨e, he, hsfx, hget⟩ :=
          ih (if m ∈ ns then ns else ns ++ [m]) (dictInsert ps m (pre ++ x)) n hre
        exact ⟨e, List.mem_cons_of_mem x he, hsfx, by simpa [procEntries, hsx] using hget⟩
    · obtain ⟨e, he, hsfx⟩ := h
      rcases List.mem_cons.mp he with hex | hex
      · subst hex
        refine ⟨e, List.mem_cons_self e rest, hsfx, ?_⟩
        have hun := procEntries_get_unchanged pre rest
          (if n ∈ ns then ns else ns ++ [n]) (dictInsert ps n (pre ++ e)) n
          (fun e2 he2 hc => hre ⟨e2, he2, hc⟩)
        rw [dictGet_insert_self ps n (pre ++ e)] at hun
        simpa [procEntries, hsfx] using hun
      · exact absurd ⟨e, hex, hsfx⟩ hre

theorem invSt_nil : InvSt (([] : List String), ([] : List (String × String))) := by
  refine ⟨?_, ?_, ?_⟩
  · intro m; simp [cnt]
  · intro m h; simp [cnt] at h
  · intro m; simp [keyCount]

theorem invSt_scan (flash sdl : List String) :
    InvSt (procEntries "/sd/apps/" sdl (procEntries "/apps/" flash ([], []))) :=
  invSt_procEntries _ _ _ _ (invSt_procEntries _ _ _ _ invSt_nil)

/-- Claim C1 is false as stated: on an empty scan the ordered list contains
`Reload Apps` while the mapping has no entry for it (`scan_apps` lines
263-275 only assign a path to `Settings`). -/
theorem c1_unmapped_synthetics_cex :
    "Reload Apps" ∈ (scan_pure [] []).1 ∧ keyCount (scan_pure [] []).2 "Reload Apps" = 0 := by
  decide

/-- Claim C1 (amended): every name in the ordered list other than the
synthetic entries `Reload Apps` and `UI Sound` has exactly one entry in the
name-to-path mapping; those two synthetic names get no mapping entry. -/
theorem c1_names_uniquely_mapped (flash sdl : List String) (n : String)
    (hmem : n ∈ (scan_pure flash sdl).1)
    (hra : n ≠ "Reload Apps") (hui : n ≠ "UI Sound") :
    keyCount (scan_pure flash sdl).2 n = 1 := by
  obtain ⟨h1, h2, h3⟩ := invSt_scan flash sdl
  have hmem1 : 1 ≤ cnt n
      (sortCI (procEntries "/sd/apps/" sdl (procEntries "/apps/" flash ([], []))).1 ++
        ["Reload Apps", "UI Sound", "Settings"]) :=
    (cnt_pos_iff _ _).mpr hmem
  rw [cnt_append, cnt_sortCI] at hmem1
  have hra2 : ¬ ("Reload Apps" = n) := fun hh => hra hh.symm
  have hui2 : ¬ ("UI Sound" = n) := fun hh => hui hh.symm
  by_cases hset : n = "Settings"
  · subst hset
    have hle := keyCount_insert_self_le
      (procEntries "/sd/apps/" sdl (procEntries "/apps/" flash ([], []))).2
      "Settings" "/launcher/settings.py" (h3 "Settings")
    have hge : 1 ≤ keyCount (dictInsert
        (procEntries "/sd/apps/" sdl (procEntries "/apps/" flash ([], []))).2
        "Settings" "/launcher/settings.py") "Settings" :=
      (keyCount_pos_iff _ _).mpr (by rw [dictGet_insert_self]; rfl)
    show keyCount (dictInsert _ "Settings" "/launcher/settings.py") "Settings" = 1
    omega
  · have hset2 : ¬ ("Settings" = n) := fun hh => hset hh.symm
    have htri : cnt n ["Reload Apps", "UI Sound", "Settings"] = 0 := by
      simp [cnt, hra2, hui2, hset2]
    have hm2 : 1 ≤ cnt n (procEntries "/sd/apps/" sdl (procEntries "/apps/" flash ([], []))).1 := by
      omega
    have hsome := h2 n hm2
    have hge : 1 ≤ keyCount (procEntries "/sd/apps/" sdl (procEntries "/apps/" flash ([], []))).2 n :=
      (keyCount_pos_iff _ _).mpr hsome
    have hle := h3 n
    show keyCount (dictInsert _ "Settings" "/launcher/settings.py") n = 1
    rw [keyCount_insert_ne _ "Settings" "/launcher/settings.py" n hset]
    omega

/-- Witness for the amended claim C1 at a concrete scan. -/
theorem c1_names_uniquely_mapped_witness :
    keyCount (scan_pure ["Chess.py"] []).2 "Chess" = 1 :=
  c1_names_uniquely_mapped ["Chess.py"] [] "Chess" (by decide) (by decide) (by decide)

theorem scan_pure_len (m s : List String) : 3 ≤ (scan_pure m s).1.length := by
  show 3 ≤ (sortCI _ ++ ["Reload Apps", "UI Sound", "Settings"]).length
  rw [List.length_append]
  simp

/-- Claim C2 is false as stated: with no SD card, no `/apps` directory and a
failing `os.mkdir("/apps")` (which the source does not wrap in `try`),
`scan_apps` raises instead of returning a catalog. -/
theorem c2_mkdir_raises_cex :
    scan_apps false (FS.mk false false false [] [])
        (Faults.mk false false true false false false) =
      Except.error "OSError: mkdir /apps" := rfl

/-- Claim C2 (amended): only the failures inside `try` blocks — the mount
and the `os.listdir("/sd/apps")` — are swallowed; the unguarded storage
operations (both `os.mkdir` calls, the `os.listdir("/sd")` calls, and the
`os.umount("/sd")` inside the `except` handler) propagate.  Whenever no
unguarded operation fails, every storage state yields a catalog with at
least the three synthetic entries. -/
theorem c2_catalog_total_amended (sd : Bool) (fs : FS) (f : Faults)
    (h1 : f.mkdirAppsFails = false) (h2 : f.mkdirSdAppsFails = false)
    (h3 : f.listSdFails = false) (h4 : f.umountFails = false) :
    ∃ r, scan_apps sd fs f = Except.ok r ∧ 3 ≤ r.1.length := by
  unfold scan_apps
  rw [h1, h2, h3, h4]
  simp only [Bool.and_false, Bool.false_eq_true, if_false]
  exact ⟨_, rfl, scan_pure_len _ _⟩

/-- Witness for the amended claim C2. -/
theorem c2_catalog_total_witness :
    ∃ r, scan_apps false (FS.mk false false false [] [])
        (Faults.mk false false false false false false) =
      Except.ok r ∧ 3 ≤ r.1.length :=
  c2_catalog_total_amended false (FS.mk false false false [] [])
    (Faults.mk false false false false false false) rfl rfl rfl rfl

/-- Claim C4 is false as stated for the name `Settings`: discovered on both
roots, its final mapping entry is the synthetic `/launcher/settings.py`,
not the removable-storage path. -/
theorem c4_settings_override_cex :
    dictGet (scan_pure ["Settings.py"] ["Settings.py"]).2 "Settings" =
      some "/launcher/settings.py" ∧
    dictGet (scan_pure ["Settings.py"] ["Settings.py"]).2 "Settings" ≠
      some ("/sd/apps/" ++ "Settings.py") := by
  decide

/-- Claim C4 (amended): a name discovered on both roots keeps a single
position in the ordered list while its mapping entry is the SD-card path
(last write wins) — for proper application names, i.e. names distinct from
the three synthetic entries appended after scanning (`Settings` is finally
overridden, and the synthetic suffix re-appends its three names). -/
theorem c4_sd_path_wins (flash sdl : List String) (e1 e2 n : String)
    (h1 : e1 ∈ flash) (h2 : e2 ∈ sdl) (hs1 : sfx e1 = some n) (hs2 : sfx e2 = some n)
    (hra : n ≠ "Reload Apps") (hui : n ≠ "UI Sound") (hst : n ≠ "Settings") :
    cnt n (scan_pure flash sdl).1 = 1 ∧
    ∃ e, e ∈ sdl ∧ sfx e = some n ∧
      dictGet (scan_pure flash sdl).2 n = some ("/sd/apps/" ++ e) := by
  obtain ⟨hinv1, hinv2, hinv3⟩ := invSt_scan flash sdl
  have hm1 : 1 ≤ cnt n (procEntries "/apps/" flash ([], [])).1 :=
    procEntries_mem "/apps/" flash [] [] e1 n h1 hs1
  have hm2 : 1 ≤ cnt n (procEntries "/sd/apps/" sdl (procEntries "/apps/" flash ([], []))).1 :=
    le_trans hm1 (procEntries_cnt_mono "/sd/apps/" sdl _ _ n)
  constructor
  · have hra2 : ¬ ("Reload Apps" = n) := fun hh => hra hh.symm
    have hui2 : ¬ ("UI Sound" = n) := fun hh => hui hh.symm
    have hset2 : ¬ ("Settings" = n) := fun hh => hst hh.symm
    have htri : cnt n ["Reload Apps", "UI Sound", "Settings"] = 0 := by
      simp [cnt, hra2, hui2, hset2]
    have hle := hinv1 n
    show cnt n (sortCI _ ++ ["Reload Apps", "UI Sound", "Settings"]) = 1
    rw [cnt_append, cnt_sortCI]
    omega
  · obtain ⟨e, he, hsfx, hget⟩ :=
      procEntries_get_last "/sd/apps/" sdl
        (procEntries "/apps/" flash ([], [])).1 (procEntries "/apps/" flash ([], [])).2 n
        ⟨e2, h2, hs2⟩
    refine ⟨e, he, hsfx, ?_⟩
    show dictGet (dictInsert _ "Settings" "/launcher/settings.py") n = some ("/sd/apps/" ++ e)
    rw [dictGet_insert_ne _ "Settings" "/launcher/settings.py" n hst]
    exact hget

/-- Witness for claim C4 at a concrete duplicated name. -/
theorem c4_sd_path_wins_witness :
    cnt "Foo" (scan_pure ["Foo.py"] ["Foo.py"]).1 = 1 ∧
    ∃ e, e ∈ ["Foo.py"] ∧ sfx e = some "Foo" ∧
      dictGet (scan_pure ["Foo.py"] ["Foo.py"]).2 "Foo" = some ("/sd/apps/" ++ e) :=
  c4_sd_path_wins ["Foo.py"] ["Foo.py"] "Foo.py" "Foo.py" "Foo"
    (by decide) (by decide) (by decide) (by decide) (by decide) (by decide) (by decide)

/-- Claim C5: with an SD card whose apps directory lists nothing and a flash
apps directory listing exactly `Chess.py` and `Clock.mpy`, the scan yields
the catalog `Chess, Clock, Reload Apps, UI Sound, Settings` in that order. -/
theorem c5_end_to_end_catalog :
    namesOf (scan_apps true (FS.mk true true true ["Chess.py", "Clock.mpy"] [])
        (Faults.mk false false false false false false)) =
      some ["Chess", "Clock", "Reload Apps", "UI Sound", "Settings"] := by
  decide

/-- Claim C9: after every scan, the mapping entry for `Settings` is exactly
`/launcher/settings.py` — the synthetic assignment happens last and
overwrites any discovered path for that name (e.g. a `Settings.py` file). -/
theorem c9_settings_path_fixed (flash sdl : List String) :
    dictGet (scan_pure flash sdl).2 "Settings" = some "/launcher/settings.py" :=
  dictGet_insert_self _ "Settings" "/launcher/settings.py"

/-- Claim C3: activating an entry other than `UI Sound` / `Reload Apps`
saves the config, blanks the display, releases the SD card when held (in
that order), then writes the entry's resolved path to the reset-persistent
RTC memory and only afterwards resets; activating `UI Sound` or
`Reload Apps` never writes the handoff region and never resets. -/
theorem c3_handoff_order (names : List String) (paths : List (String × String)) (i : Nat)
    (sdHeld sndOn : Bool) (p : String) :
    (names.getD i "" ≠ "UI Sound" → names.getD i "" ≠ "Reload Apps" →
      dictGet paths (names.getD i "") = some p →
      beforeB (activate names paths i sdHeld sndOn) Ev.cfgSave Ev.dispSleep = true ∧
      beforeB (activate names paths i sdHeld sndOn) Ev.dispSleep (Ev.rtcWrite p) = true ∧
      (sdHeld = true →
        beforeB (activate names paths i sdHeld sndOn) Ev.dispSleep Ev.sdDeinit = true ∧
        beforeB (activate names paths i sdHeld sndOn) Ev.sdDeinit (Ev.rtcWrite p) = true) ∧
      beforeB (activate names paths i sdHeld sndOn) (Ev.rtcWrite p) Ev.reset = true) ∧
    ((names.getD i "" = "UI Sound" ∨ names.getD i "" = "Reload Apps") →
      (∀ q, hasEv (activate names paths i sdHeld sndOn) (Ev.rtcWrite q) = false) ∧
      hasEv (activate names paths i sdHeld sndOn) Ev.reset = false) := by
  constructor
  · intro h1 h2 h3
    simp only [activate]
    rw [if_neg h1, if_neg h2, h3]
    cases sdHeld <;> cases sndOn <;> simp [beforeB, hasEv]
  · intro h
    rcases h with h | h
    · simp only [activate]
      rw [if_pos h]
      cases sndOn <;> simp [hasEv]
    · simp only [activate]
      rw [if_neg (by rw [h]; decide), if_pos h]
      cases sndOn <;> simp [hasEv]

/-- Witness for claim C3: a real app launch writes then resets, and an
activation of `UI Sound` never resets. -/
theorem c3_handoff_order_witness :
    beforeB (activate ["Alpha", "UI Sound"] [("Alpha", "/apps/Alpha.py")] 0 true true)
      (Ev.rtcWrite "/apps/Alpha.py") Ev.reset = true ∧
    hasEv (activate ["Alpha", "UI Sound"] [("Alpha", "/apps/Alpha.py")] 1 true true)
      Ev.reset = false := by
  constructor
  · exact ((c3_handoff_order ["Alpha", "UI Sound"] [("Alpha", "/apps/Alpha.py")] 0 true true
      "/apps/Alpha.py").1 (by decide) (by decide) (by decide)).2.2.2
  · exact ((c3_handoff_order ["Alpha", "UI Sound"] [("Alpha", "/apps/Alpha.py")] 1 true true
      "").2 (Or.inl (by decide))).2

theorem stepMove_range (len : Nat) (h : 1 ≤ len) (m : MV) (i : Int) :
    0 ≤ stepMove len m i ∧ stepMove len m i < (len : Int) := by
  have hpos : (0 : Int) < (len : Int) := by exact_mod_cast h
  have hne : (len : Int) ≠ 0 := ne_of_gt hpos
  cases m
  · exact ⟨Int.emod_nonneg _ hne, Int.emod_lt_of_pos _ hpos⟩
  · exact ⟨Int.emod_nonneg _ hne, Int.emod_lt_of_pos _ hpos⟩

/-- Claim C6: after any sequence of next/previous moves from the initial
index 0, the selection index stays in `[0, len)`, and at index `len - 1` a
forward move wraps to 0. -/
theorem c6_index_always_in_range (len : Nat) (h : 1 ≤ len) :
    (∀ ms : List MV, 0 ≤ applyMoves len ms 0 ∧ applyMoves len ms 0 < (len : Int)) ∧
    stepMove len MV.nxt ((len : Int) - 1) = 0 := by
  have hgen : ∀ (ms : List MV) (i : Int), 0 ≤ i → i < (len : Int) →
      0 ≤ applyMoves len ms i ∧ applyMoves len ms i < (len : Int) := by
    intro ms
    induction ms with
    | nil => intro i h0 h1; exact ⟨h0, h1⟩
    | cons m rest ih =>
      intro i h0 h1
      have hs := stepMove_range len h m i
      exact ih (stepMove len m i) hs.1 hs.2
  have hpos : (0 : Int) < (len : Int) := by exact_mod_cast h
  refine ⟨fun ms => hgen ms 0 le_rfl hpos, ?_⟩
  show ((len : Int) - 1 + 1) % (len : Int) = 0
  rw [sub_add_cancel]
  exact Int.emod_self

/-- Witness for claim C6 at a length-3 catalog. -/
theorem c6_index_always_in_range_witness :
    (0 ≤ applyMoves 3 [MV.nxt, MV.prv, MV.prv] 0 ∧
      applyMoves 3 [MV.nxt, MV.prv, MV.prv] 0 < (3 : Int)) ∧
    stepMove 3 MV.nxt ((3 : Int) - 1) = 0 :=
  ⟨(c6_index_always_in_range 3 (by decide)).1 [MV.nxt, MV.prv, MV.prv],
   (c6_index_always_in_range 3 (by decide)).2⟩

theorem connLoop_le (f : Nat → Bool) : ∀ n a, 100 ≤ a + n → a < 100 → connLoop f a ≤ 100 := by
  intro n
  induction n with
  | zero => intro a h1 h2; omega
  | succ n ih =>
    intro a h1 h2
    unfold connLoop
    split
    · omega
    · split
      · omega
      · exact ih (a + 1) (by omega) (by omega)

theorem ntpLoop_le (g : Nat → Bool) : ∀ n a, 10 ≤ a + n → a ≤ 10 → ntpLoop g a ≤ 10 := by
  intro n
  induction n with
  | zero =>
    intro a h1 h2
    unfold ntpLoop
    split
    · next hcond => omega
    · omega
  | succ n ih =>
    intro a h1 h2
    unfold ntpLoop
    split
    · next hcond => exact ih (a + 1) (by omega) (by omega)
    · omega

/-- Claim C10: both retry loops of `wifi_sync_rtc` are bounded — for every
behaviour of the network and of the clock, the connection loop makes at
most 100 attempts and the NTP loop at most 10. -/
theorem c10_sync_loops_bounded (f g : Nat → Bool) :
    connLoop f 0 ≤ 100 ∧ ntpLoop g 0 ≤ 10 :=
  ⟨connLoop_le f 100 0 (by omega) (by omega),
   ntpLoop_le g 10 0 (by omega) (by omega)⟩

theorem ratAbs_of_nonneg (x : ℚ) (h : 0 ≤ x) : ratAbs x = x := by
  unfold ratAbs
  rw [if_neg (not_lt.mpr h)]

theorem decayStep_of_big (x : ℚ) (h : 11 / 100 < x) : decayStep x = x - 11 / 100 := by
  unfold decayStep
  rw [if_pos (show (0 : ℚ) < x by linarith), ratAbs_of_nonneg x (by linarith)]
  unfold ratMin
  rw [if_pos (le_of_lt h)]

theorem decayStep_of_small (x : ℚ) (h0 : 0 < x) (h : x ≤ 11 / 100) : decayStep x = 0 := by
  unfold decayStep
  rw [if_pos h0, ratAbs_of_nonneg x (le_of_lt h0)]
  unfold ratMin
  by_cases he : 11 / 100 ≤ x
  · have hx : x = 11 / 100 := le_antisymm h he
    rw [if_pos he, hx]
    ring
  · rw [if_neg he]
    ring

theorem decayStep_nonneg (x : ℚ) (h : 0 ≤ x) : 0 ≤ decayStep x := by
  by_cases hp : 0 < x
  · unfold decayStep
    rw [if_pos hp, ratAbs_of_nonneg x h]
    unfold ratMin
    by_cases hm : 11 / 100 ≤ x
    · rw [if_pos hm]; linarith
    · rw [if_neg hm]; linarith
  · have hz : x = 0 := le_antisymm (not_lt.mp hp) h
    subst hz
    unfold decayStep ratMin ratAbs
    norm_num

theorem decayIter_succ (k : Nat) : decayIter (k + 1) = decayStep (decayIter k) :=
  Function.iterate_succ_apply' decayStep k 1

/-- Claim C7: from `scroll_factor = 1.0` the per-tick decay by
`min(0.11, abs(x))` reaches exactly 0 after 10 ticks, stays 0 afterwards,
and is never negative at any tick (floats modelled as exact rationals). -/
theorem c7_scroll_decay :
    decayIter 10 = 0 ∧ (∀ k, 10 ≤ k → decayIter k = 0) ∧ (∀ k, 0 ≤ decayIter k) := by
  have v0 : decayIter 0 = 1 := rfl
  have v1 : decayIter 1 = 89 / 100 := by
    rw [show (1 : Nat) = 0 + 1 from rfl, decayIter_succ, v0, decayStep_of_big 1 (by norm_num)]
    norm_num
  have v2 : decayIter 2 = 78 / 100 := by
    rw [show (2 : Nat) = 1 + 1 from rfl, decayIter_succ, v1,
      decayStep_of_big (89 / 100) (by norm_num)]
    norm_num
  have v3 : decayIter 3 = 67 / 100 := by
    rw [show (3 : Nat) = 2 + 1 from rfl, decayIter_succ, v2,
      decayStep_of_big (78 / 100) (by norm_num)]
    norm_num
  have v4 : decayIter 4 = 56 / 100 := by
    rw [show (4 : Nat) = 3 + 1 from rfl, decayIter_succ, v3,
      decayStep_of_big (67 / 100) (by norm_num)]
    norm_num
  have v5 : decayIter 5 = 45 / 100 := by
    rw [show (5 : Nat) = 4 + 1 from rfl, decayIter_succ, v4,
      decayStep_of_big (56 / 100) (by norm_num)]
    norm_num
  have v6 : decayIter 6 = 34 / 100 := by
    rw [show (6 : Nat) = 5 + 1 from rfl, decayIter_succ, v5,
      decayStep_of_big (45 / 100) (by norm_num)]
    norm_num
  have v7 : decayIter 7 = 23 / 100 := by
    rw [show (7 : Nat) = 6 + 1 from rfl, decayIter_succ, v6,
      decayStep_of_big (34 / 100) (by norm_num)]
    norm_num
  have v8 : decayIter 8 = 12 / 100 := by
    rw [show (8 : Nat) = 7 + 1 from rfl, decayIter_succ, v7,
      decayStep_of_big (23 / 100) (by norm_num)]
    norm_num
  have v9 : decayIter 9 = 1 / 100 := by
    rw [show (9 : Nat) = 8 + 1 from rfl, decayIter_succ, v8,
      decayStep_of_big (12 / 100) (by norm_num)]
    norm_num
  have v10 : decayIter 10 = 0 := by
    rw [show (10 : Nat) = 9 + 1 from rfl, decayIter_succ, v9,
      decayStep_of_small (1 / 100) (by norm_num) (by norm_num)]
  have hnn : ∀ k, 0 ≤ decayIter k := by
    intro k
    induction k with
    | zero => rw [v0]; norm_num
    | succ k ih => rw [decayIter_succ]; exact decayStep_nonneg _ ih
  refine ⟨v10, ?_, hnn⟩
  intro k hk
  induction k with
  | zero => omega
  | succ k ih =>
    rcases Nat.lt_or_ge 10 (k + 1) with hgt | hge
    · have hk10 : 10 ≤ k := by omega
      rw [decayIter_succ, ih hk10]
      unfold decayStep ratMin ratAbs
      norm_num
    · have : k + 1 = 10 := by omega
      rw [this, v10]

theorem jumpScan_eq_findFirstIdx (c : Char) (old : Nat) :
    ∀ (l : List String) (idx : Nat),
      jumpScan c old idx l =
        match findFirstIdx (jumpMatch c) l with
        | none => (old, none)
        | some j =>
          (idx + j,
            if idx + j < old then some (-1) else if old < idx + j then some 1 else none) := by
  intro l
  induction l with
  | nil => intro idx; rfl
  | cons n rest ih =>
    intro idx
    by_cases hm : jumpMatch c n
    · simp [jumpScan, findFirstIdx, hm]
    · simp only [jumpScan, findFirstIdx, hm, if_neg, if_false, Bool.false_eq_true]
      rw [ih (idx + 1)]
      cases hrest : findFirstIdx (jumpMatch c) rest with
      | none => simp
      | some j =>
        have harith : idx + 1 + j = idx + (j + 1) := by omega
        simp [harith]

/-- Claim C8: the jump-to-letter shortcut selects the first catalog entry
whose lower-cased name starts with the pressed character, leaves the index
unchanged when nothing matches, picks the animation direction as the sign
of the index delta with no wrap-around special-casing, and performs no
animation reset when the index is unchanged. -/
theorem c8_jump_first_match (c : Char) (names : List String) (old : Nat) :
    (findFirstIdx (jumpMatch c) names = none → jumpScan c old 0 names = (old, none)) ∧
    (∀ j, findFirstIdx (jumpMatch c) names = some j →
      (jumpScan c old 0 names).1 = j ∧
      (jumpScan c old 0 names).2 =
        if (j : Int) = (old : Int) then none
        else some (Int.sign ((j : Int) - (old : Int)))) := by
  constructor
  · intro h
    rw [jumpScan_eq_findFirstIdx c old names 0, h]
  · intro j h
    rw [jumpScan_eq_findFirstIdx c old names 0, h]
    simp only [Nat.zero_add]
    rcases Nat.lt_trichotomy j old with hlt | heq | hgt
    · have h1 : ((j : Int) - (old : Int)).sign = -1 :=
        Int.sign_eq_neg_one_of_neg (by omega)
      rw [if_pos hlt]
      refine ⟨trivial, ?_⟩
      rw [if_neg (by omega : ¬ ((j : Int) = (old : Int))), h1]
    · subst heq
      rw [if_neg (by omega), if_neg (by omega)]
      refine ⟨trivial, ?_⟩
      rw [if_pos rfl]
    · have h1 : ((j : Int) - (old : Int)).sign = 1 :=
        Int.sign_eq_one_of_pos (by omega)
      rw [if_neg (by omega), if_pos hgt]
      refine ⟨trivial, ?_⟩
      rw [if_neg (by omega : ¬ ((j : Int) = (old : Int))), h1]

/-- Witness for claim C8: jumping to letter `c` from index 1 in
`[Chess, Clock]` selects index 0 with a backward animation reset. -/
theorem c8_jump_first_match_witness :
    (jumpScan 'c' 1 0 ["Chess", "Clock"]).1 = 0 ∧
    (jumpScan 'c' 1 0 ["Chess", "Clock"]).2 =
      if ((0 : Nat) : Int) = ((1 : Nat) : Int) then none
      else some (Int.sign (((0 : Nat) : Int) - ((1 : Nat) : Int))) :=
  (c8_jump_first_match 'c' ["Chess", "Clock"] 1).2 0 (by decide)
